import Mathlib

/-!
# Verification of the IMDB-2024 dashboard data pipeline

Shallow embedding of the data-cleaning / scoring / filtering pipeline shared by
`filteratiom_app.py` and `visualization_app.py` (function `load_movies_data`,
the module-level filtering code, and `filter_data`).

Python strings are modelled as `List Char`; pandas float columns that can hold
`NaN` are modelled as `Option ℚ` (`none` = `NaN`/non-finite); all other
numerics are `ℚ`/`ℕ`.
-/

namespace IMDB

/-- Python `str` is modelled as a list of characters. -/
abbrev Str := List Char

/-- Characters stripped by Python `str.strip()` (ASCII whitespace). -/
def pySpaceChar (c : Char) : Bool :=
  c = ' ' || c = '\t' || c = '\n' || c = '\x0d' || c = '\x0b' || c = '\x0c'

/-- Drop trailing whitespace (the right half of Python `str.strip()`). -/
def stripBack (l : Str) : Str := (l.reverse.dropWhile pySpaceChar).reverse

/-- Python `str.strip()`: drop leading and trailing whitespace. -/
def pyStrip (l : Str) : Str := stripBack (l.dropWhile pySpaceChar)

/-- Lower-casing of a single character, as Python `str.lower()` acts on
ASCII letters (the data never contains non-ASCII letters). -/
def pyLowerChar (c : Char) : Char :=
  if 65 ≤ c.toNat ∧ c.toNat ≤ 90 then Char.ofNat (c.toNat + 32) else c

/-- Python `str.lower()`. -/
def pyLower (l : Str) : Str := l.map pyLowerChar

/-- Genre cleaning, `filteratiom_app.py` line 51 / `visualization_app.py`
line 51: `df['Genre'].str.strip().str.lower()`. -/
def normalize_genre (l : Str) : Str := pyLower (pyStrip l)

/-- `str.replace('K', '000')` (`filteratiom_app.py` line 25): every
occurrence of `'K'` is replaced by `"000"`. -/
def expandK (l : Str) : Str :=
  l.flatMap (fun c => if c = 'K' then ['0', '0', '0'] else [c])

/-- `str.replace(',', '')` (`filteratiom_app.py` line 26). -/
def removeCommas (l : Str) : Str := l.filter (fun c => c ≠ ',')

/-- Numeric value of a digit character. -/
def digitVal (c : Char) : ℕ := c.toNat - 48

/-- Value of a list of digit characters read in base 10. -/
def digitsVal (l : Str) : ℕ := l.foldl (fun a c => 10 * a + digitVal c) 0

/-- `Series.str.extract(r'(\d+)')` (`filteratiom_app.py` line 27): the first
maximal run of consecutive digits, as a number; `none` when the string
contains no digit (pandas yields `NaN` there). -/
def firstDigitRun : Str → Option ℕ
  | [] => none
  | c :: cs =>
    if c.isDigit then some (digitsVal ((c :: cs).takeWhile Char.isDigit))
    else firstDigitRun cs

/-- Voting cleaning, `filteratiom_app.py` lines 23-29 (identical in
`visualization_app.py`): replace every `'K'` by `"000"`, delete commas,
extract the first digit run, and `fillna(0)` when no digit is found.
The result is always a natural number. -/
def normalize_voting (l : Str) : ℕ :=
  match firstDigitRun (removeCommas (expandK l)) with
  | some n => n
  | none => 0

/-- Decimal-literal representation: sign, integer part, fraction value and
fraction length, so that the denoted value is
`±(ip + fv / 10 ^ fl)`. -/
structure DecRep where
  neg : Bool
  ip : ℕ
  fv : ℕ
  fl : ℕ
deriving DecidableEq

/-- The rational number denoted by a `DecRep`. -/
def repVal (r : DecRep) : ℚ :=
  (if r.neg then -1 else 1) * ((r.ip : ℚ) + (r.fv : ℚ) / 10 ^ r.fl)

/-- Parse `digits [. digits]` after an optional sign has been consumed. -/
def parseDecCore (neg : Bool) (l : Str) : Option DecRep :=
  let d1 := l.takeWhile Char.isDigit
  match l.dropWhile Char.isDigit with
  | [] => if d1.isEmpty then none else some ⟨neg, digitsVal d1, 0, 0⟩
  | c :: r2 =>
    if c = '.' then
      let d2 := r2.takeWhile Char.isDigit
      if (r2.dropWhile Char.isDigit).isEmpty ∧ ¬(d1.isEmpty ∧ d2.isEmpty) then
        some ⟨neg, digitsVal d1, digitsVal d2, d2.length⟩
      else none
    else none

/-- Parse a signed decimal literal (`"7"`, `"-2.5"`, `".5"`, `"3."`).
This models the grammar `pd.to_numeric` accepts on the Rating data;
unparseable text yields `none` (pandas: `NaN`). -/
def parseDecimalRep (l : Str) : Option DecRep :=
  match l with
  | '-' :: rest => parseDecCore true rest
  | '+' :: rest => parseDecCore false rest
  | _ => parseDecCore false l

/-- Rating cleaning, `filteratiom_app.py` line 32 (identical in
`visualization_app.py`): `pd.to_numeric(df['Rating'], errors='coerce').fillna(0)`
— a numeric literal passes through unchanged (no clamping), anything else
becomes `0`. -/
def normalize_rating (l : Str) : ℚ :=
  match parseDecimalRep (pyStrip l) with
  | some r => repVal r
  | none => 0

/-- Decimal digit characters of a natural number, most significant first. -/
def natDigits (n : ℕ) : Str :=
  if h : n < 10 then [Char.ofNat (48 + n)]
  else natDigits (n / 10) ++ [Char.ofNat (48 + n % 10)]
termination_by n
decreasing_by exact Nat.div_lt_self (by omega) (by omega)

/-- Left-pad a digit string with zeros to length `k`. -/
def padZeros (k : ℕ) (d : Str) : Str := List.replicate (k - d.length) '0' ++ d

/-- Canonical text rendering of a parsed decimal value (the float

rendering pandas would produce: always one `'.'`, fraction `0` shown). -/
def renderRep (r : DecRep) : Str :=
  (if r.neg then ['-'] else []) ++ natDigits r.ip ++ '.' ::
    (if r.fl = 0 then ['0'] else padZeros r.fl (natDigits r.fv))

/-- Text rendering of an integer-valued pandas float column entry
(`astype(str)` of e.g. `12345.0` gives `"12345.0"`). -/
def renderFloatNat (n : ℕ) : Str := natDigits n ++ ['.', '0']

/-- `str.replace('h', 'h ')`, `filteratiom_app.py` lines 35-38: ensure a
space after every `'h'` before duration parsing. -/
def hSpace (l : Str) : Str :=
  l.flatMap (fun c => if c = 'h' then ['h', ' '] else [c])

/-- Scanner behind `re.findall(r'(\d+)X', d)[0]`: value of the first maximal
digit run immediately followed by the character `c`, `none` when there is no
such run.  `cur` carries the digit run currently being read. -/
def findNumGo (c : Char) : Option ℕ → Str → Option ℕ
  | _, [] => none
  | cur, x :: xs =>
    if x.isDigit then findNumGo c (some (cur.getD 0 * 10 + digitVal x)) xs
    else if x = c then
      match cur with
      | some n => some n
      | none => findNumGo c none xs
    else findNumGo c none xs

/-- First `(\d+)` group immediately preceding character `c`. -/
def findNumBefore (c : Char) (l : Str) : Option ℕ := findNumGo c none l

/-- `parse_duration`, `filteratiom_app.py` lines 39-45: extract an hours
component `(\d+)h` and a minutes component `(\d+)m`, default each to `0`,
return `hours*60 + minutes` — except that when both are `0` (Python
falsiness of `hours or minutes`) the result is `None` (the imputation
sentinel). -/
def parse_duration (d : Str) : Option ℕ :=
  let hours := (findNumBefore 'h' d).getD 0
  let minutes := (findNumBefore 'm' d).getD 0
  if hours ≠ 0 ∨ minutes ≠ 0 then some (hours * 60 + minutes) else none

/-- Full Duration cleaning of one cell, `filteratiom_app.py` lines 35-47:
the `'h' ↦ "h "` rewrite followed by `parse_duration`. -/
def clean_duration (l : Str) : Option ℚ :=
  (parse_duration (hSpace l)).map (fun n => (n : ℚ))

/-- A raw row as read from the `movies_2024` table (all five columns are
treated as text, `filteratiom_app.py` line 18). -/
structure RawRecord where
  title : Str
  genre : Str
  rating : Str
  voting : Str
  duration : Str
deriving DecidableEq

/-- A row after the per-field cleaning steps (Voting/Rating/Duration/Genre);
`duration = none` models a `NaN` cell. -/
structure CleanRecord where
  title : Str
  genre : Str
  rating : ℚ
  voting : ℚ
  duration : Option ℚ
deriving DecidableEq

/-- A row after the score computation added the `Voting_norm`, `Rating_norm`
and `Score` columns; `none` models a non-finite (`NaN`/`inf`) float. -/
structure ScoredRecord where
  title : Str
  genre : Str
  rating : ℚ
  voting : ℚ
  duration : Option ℚ
  votingNorm : Option ℚ
  ratingNorm : ℚ
  score : Option ℚ
deriving DecidableEq

/-- The per-field cleaning of one raw row, `filteratiom_app.py`
lines 23-51: Voting via `normalize_voting` (a non-negative integer cast into
the float column), Rating via `normalize_rating`, Duration via
`clean_duration`, Genre via `normalize_genre`; Title untouched. -/
def cleanFields (r : RawRecord) : CleanRecord :=
  { title := r.title
    genre := normalize_genre r.genre
    rating := normalize_rating r.rating
    voting := (normalize_voting r.voting : ℚ)
    duration := clean_duration r.duration }

/-- Duration imputation, `filteratiom_app.py` line 48:
`df['Duration'].fillna(df['Duration'].mean())`.  The mean is taken over the
defined (non-`NaN`) entries of the whole batch; when there is none, the mean
is itself `NaN` and every missing value silently stays `NaN` — no error is
raised. -/
def impute_duration (l : List CleanRecord) : List CleanRecord :=
  let ds := l.filterMap (fun r => r.duration)
  let m : Option ℚ := if ds.isEmpty then none else some (ds.sum / (ds.length : ℚ))
  l.map (fun r =>
    { r with duration := match r.duration with | some d => some d | none => m })

/-- `df['Voting'].max()` over the batch (line 54). -/
def votingMax : List CleanRecord → ℚ
  | [] => 0
  | x :: xs => xs.foldl (fun a r => max a r.voting) x.voting

/-- Pandas float division: a zero denominator yields a non-finite value
(`0/0 = NaN`, `x/0 = ±inf`) and raises no error; `none` models the
non-finite outcomes. -/
def pdDiv (a b : ℚ) : Option ℚ := if b = 0 then none else some (a / b)

/-- Score computation, `filteratiom_app.py` lines 53-56:
`Voting_norm = Voting / Voting.max()`, `Rating_norm = Rating / 10`,
`Score = Rating_norm * 0.5 + Voting_norm * 0.5`.  When the batch maximum of
Voting is `0` the division silently produces non-finite values for every
row; no error is raised. -/
def compute_score (l : List CleanRecord) : List ScoredRecord :=
  let m := votingMax l
  l.map (fun r =>
    let vn := pdDiv r.voting m
    { title := r.title, genre := r.genre, rating := r.rating, voting := r.voting
      duration := r.duration, votingNorm := vn, ratingNorm := r.rating / 10
      score := match vn with
        | none => none
        | some v => some (r.rating / 10 * (1 / 2) + v * (1 / 2)) })

/-- Descending-Voting comparison used by `sort_values(by=['Voting'],
ascending=False)`. -/
def votingGe (a b : ScoredRecord) : Prop := b.voting ≤ a.voting

instance : DecidableRel votingGe :=
  fun a b => inferInstanceAs (Decidable (b.voting ≤ a.voting))

/-- `drop_duplicates(subset=['Title'], keep='first')`, line 59: keep the
first row of each Title, in order; `seen` are the titles already kept. -/
def dedupTitlesAux (seen : List Str) : List ScoredRecord → List ScoredRecord
  | [] => []
  | x :: xs =>
    if x.title ∈ seen then dedupTitlesAux seen xs
    else x :: dedupTitlesAux (x.title :: seen) xs

/-- The full guarantee of `sort_values(by=['Voting'], ascending=False)`
with the default `kind='quicksort'` (`filteratiom_app.py` line 59): the
output is SOME permutation of the input in descending Voting order.
Nothing more is guaranteed — numpy's quicksort is unstable, and pandas
produces the descending order by reversing the ascending argsort — so the
relative order of rows with equal Voting is unspecified. -/
def sort_values_desc (inp out : List ScoredRecord) : Prop :=
  List.Perm out inp ∧ List.Pairwise votingGe out

instance (inp out : List ScoredRecord) : Decidable (sort_values_desc inp out) :=
  inferInstanceAs (Decidable (List.Perm out inp ∧ List.Pairwise votingGe out))

/-- Deduplication, `filteratiom_app.py` line 59: `sort_values(by=['Voting'],
ascending=False)` followed by `drop_duplicates(subset=['Title'],
keep='first')`.  The executable model uses `List.insertionSort` as one
admissible implementation of the sort, so that the pipeline can be
evaluated on concrete batches (on batches without Voting ties — in
particular singletons — every admissible implementation agrees); the
deduplication theorem quantifies over every sort output admitted by
`sort_values_desc`, the program's actual guarantee. -/
def deduplicate (l : List ScoredRecord) : List ScoredRecord :=
  dedupTitlesAux [] (List.insertionSort votingGe l)

/-- The whole cleaning pipeline of `load_movies_data`
(`filteratiom_app.py` lines 22-61), from the raw rows delivered by the
database collaborator to the cleaned, scored, deduplicated batch. -/
def load_movies_data (raws : List RawRecord) : List ScoredRecord :=
  deduplicate (compute_score (impute_duration (raws.map cleanFields)))

/-- Boolean-mask row selection, as pandas `df[mask]`. -/
def boolIndex : List ScoredRecord → List Bool → List ScoredRecord
  | [], _ => []
  | _, [] => []
  | x :: xs, b :: bs => if b then x :: boolIndex xs bs else boolIndex xs bs

/-- `filter_data`, `filteratiom_app.py` lines 100-107: conjunction of the
four column masks `Genre.isin(genres)`, `Rating.between(rating_min,
rating_max)`, `Voting.between(votes[0], votes[1])` and
`Duration.between(dur_range[0], dur_range[1])` (`between` is inclusive;
a `NaN` Duration fails `between`). -/
def filter_data (l : List ScoredRecord) (genres : List Str)
    (rating_min rating_max : ℚ) (votes : ℚ × ℚ) (dur_range : ℚ × ℚ) :
    List ScoredRecord :=
  let m1 := l.map (fun r => decide (r.genre ∈ genres))
  let m2 := l.map (fun r => decide (rating_min ≤ r.rating ∧ r.rating ≤ rating_max))
  let m3 := l.map (fun r => decide (votes.1 ≤ r.voting ∧ r.voting ≤ votes.2))
  let m4 := l.map (fun r =>
    match r.duration with
    | none => false
    | some d => decide (dur_range.1 ≤ d ∧ d ≤ dur_range.2))
  boolIndex l (List.zipWith and (List.zipWith and (List.zipWith and m1 m2) m3) m4)

/-- One step of `Series.idxmin` on the Duration column: `NaN` entries are
skipped, a strictly smaller value replaces the current best (so the first
row attaining the minimum wins). -/
def minStep (acc : Option (ScoredRecord × ℚ)) (r : ScoredRecord) :
    Option (ScoredRecord × ℚ) :=
  match r.duration with
  | none => acc
  | some d =>
    match acc with
    | none => some (r, d)
    | some (b, bd) => if d < bd then some (r, d) else some (b, bd)

/-- One step of `Series.idxmax` on the Duration column. -/
def maxStep (acc : Option (ScoredRecord × ℚ)) (r : ScoredRecord) :
    Option (ScoredRecord × ℚ) :=
  match r.duration with
  | none => acc
  | some d =>
    match acc with
    | none => some (r, d)
    | some (b, bd) => if bd < d then some (r, d) else some (b, bd)

/-- Row at `filtered_df['Duration'].idxmin()`; `none` when the column has no
defined entry (pandas raises `ValueError` there). -/
def idx_min (l : List ScoredRecord) : Option ScoredRecord :=
  (l.foldl minStep none).map Prod.fst

/-- Row at `filtered_df['Duration'].idxmax()`. -/
def idx_max (l : List ScoredRecord) : Option ScoredRecord :=
  (l.foldl maxStep none).map Prod.fst

/-- Shortest/longest-movie block of `filteratiom_app.py` lines 185-190:
guarded by `if not filtered_df.empty`; the `else` branch emits the explicit
"No movies match the filters." marker, modelled `Except.ok none`.
`Except.error` models an exception escaping (only reachable when the
non-empty subset has no defined Duration at all). -/
def shortest_longest_fil (l : List ScoredRecord) :
    Except String (Option (ScoredRecord × ScoredRecord)) :=
  if l.isEmpty then Except.ok none
  else
    match idx_min l, idx_max l with
    | some a, some b => Except.ok (some (a, b))
    | _, _ => Except.error "attempt to get argmin of an empty sequence"

/-- Shortest/longest-movie block of `visualization_app.py` lines 158-161:
no emptiness guard — `idxmin` on an empty subset raises `ValueError`,
modelled `Except.error`. -/
def shortest_longest_vis (l : List ScoredRecord) :
    Except String (ScoredRecord × ScoredRecord) :=
  match idx_min l, idx_max l with
  | some a, some b => Except.ok (a, b)
  | _, _ => Except.error "attempt to get argmin of an empty sequence"

instance : IsTotal ScoredRecord votingGe :=
  ⟨fun a b => (le_total b.voting a.voting).imp id id⟩

instance : IsTrans ScoredRecord votingGe :=
  ⟨fun _ _ _ h1 h2 => le_trans h2 h1⟩

/-! ## Generic text lemmas -/

theorem digitsVal_all_zero (l : Str) (h : ∀ c ∈ l, c = '0') : digitsVal l = 0 := by
  have key : ∀ m : Str, (∀ c ∈ m, c = '0') →
      m.foldl (fun a c => 10 * a + digitVal c) 0 = 0 := by
    intro m hm
    induction m with
    | nil => rfl
    | cons c cs ih =>
      have hc : c = '0' := hm c (List.mem_cons_self c cs)
      have : digitVal c = 0 := by subst hc; rfl
      simp only [List.foldl_cons, this, Nat.mul_zero, Nat.add_zero]
      exact ih fun d hd => hm d (List.mem_cons_of_mem c hd)
  exact key l h

theorem mem_expandK {c : Char} {l : Str} (h : c ∈ expandK l) : c ∈ l ∨ c = '0' := by
  unfold expandK at h
  rcases List.mem_flatMap.mp h with ⟨a, ha, hc⟩
  by_cases hK : a = 'K'
  · simp only [hK, if_pos rfl] at hc
    exact Or.inr (by simpa using hc)
  · simp only [if_neg hK, List.mem_singleton] at hc
    exact Or.inl (hc ▸ ha)

theorem mem_removeCommas {c : Char} {l : Str} (h : c ∈ removeCommas l) : c ∈ l :=
  (List.mem_filter.mp h).1

theorem firstDigitRun_of_zero_digits (l : Str) (h : ∀ c ∈ l, c.isDigit → c = '0') :
    firstDigitRun l = none ∨ firstDigitRun l = some 0 := by
  induction l with
  | nil => exact Or.inl rfl
  | cons c cs ih =>
    by_cases hc : c.isDigit
    · right
      rw [firstDigitRun, if_pos hc]
      have hz : ∀ d ∈ (c :: cs).takeWhile Char.isDigit, d = '0' := by
        intro d hd
        exact h d ((List.takeWhile_prefix Char.isDigit).sublist.subset hd)
          (List.mem_takeWhile_imp hd)
      rw [digitsVal_all_zero _ hz]
    · rw [firstDigitRun, if_neg hc]
      exact ih fun d hd hdig => h d (List.mem_cons_of_mem c hd) hdig

theorem findNumGo_of_not_mem {c : Char} {l : Str} (h : c ∉ l) :
    ∀ cur, findNumGo c cur l = none := by
  induction l with
  | nil => intro cur; rfl
  | cons x xs ih =>
    intro cur
    have hxc : x ≠ c := fun hx => h (hx ▸ List.mem_cons_self x xs)
    have hxs : c ∉ xs := fun hx => h (List.mem_cons_of_mem x hx)
    by_cases hd : x.isDigit
    · rw [findNumGo.eq_def]
      simp only [if_pos hd]
      exact ih hxs _
    · rw [findNumGo.eq_def]
      simp only [if_neg hd, if_neg hxc]
      exact ih hxs none

theorem hSpace_of_no_h {l : Str} (h : 'h' ∉ l) : hSpace l = l := by
  induction l with
  | nil => rfl
  | cons x xs ih =>
    have hx : x ≠ 'h' := fun hx => h (hx ▸ List.mem_cons_self x xs)
    have hxs : 'h' ∉ xs := fun hm => h (List.mem_cons_of_mem x hm)
    simp only [hSpace, List.flatMap_cons, if_neg hx, List.singleton_append]
    simpa [hSpace] using ih hxs

theorem mem_hSpace {c : Char} {l : Str} (h : c ∈ hSpace l) : c ∈ l ∨ c = ' ' := by
  unfold hSpace at h
  rcases List.mem_flatMap.mp h with ⟨a, ha, hc⟩
  by_cases hh : a = 'h'
  · simp only [hh, if_pos rfl] at hc
    rcases (by simpa using hc : c = 'h' ∨ c = ' ') with h0 | h0
    · exact Or.inl (by rw [h0, ← hh]; exact ha)
    · exact Or.inr h0
  · simp only [if_neg hh, List.mem_singleton] at hc
    exact Or.inl (hc ▸ ha)

/-! ## C2: normalize_voting -/

/-- C2, counterexample: on input `"8.2K"` the code yields `8`, not the
`8000` the claim states (the `'.'` cuts the digit run before the expanded
`"000"` is reached); and the `'K'` expansion is not restricted to a
trailing suffix: `"5K6"` becomes `"50006"`. -/
theorem C2_counterexample :
    normalize_voting ("8.2K".data) = 8 ∧ (8 : ℕ) ≠ 8000 ∧
    normalize_voting ("5K6".data) = 50006 := by
  refine ⟨by decide, by decide, by decide⟩

/-- C2, amended: `normalize_voting` maps any input text to a non-negative
integer by expanding every occurrence of `'K'` into `"000"`, stripping
commas, then extracting the first contiguous run of digits; it returns `0`
whenever the input contains no digit, `"12,345"` maps to `12345`, `"8.2K"`
maps to `8` (not `8000`: the dot ends the first digit run), and the
operation never raises an error on any input (it is a total function into
`ℕ`). -/
theorem C2_amended :
    (∀ l : Str, (∀ c ∈ l, ¬ c.isDigit) → normalize_voting l = 0) ∧
    normalize_voting ("12,345".data) = 12345 ∧
    normalize_voting ("8.2K".data) = 8 := by
  refine ⟨?_, by decide, by decide⟩
  intro l hl
  unfold normalize_voting
  have hz : ∀ c ∈ removeCommas (expandK l), c.isDigit → c = '0' := by
    intro c hc hdig
    rcases mem_expandK (mem_removeCommas hc) with hmem | h0
    · exact absurd hdig (hl c hmem)
    · exact h0
  rcases firstDigitRun_of_zero_digits _ hz with h | h <;> rw [h]

/-- C2, witness: the amended theorem applied at the digit-free input
`"abcK"`. -/
theorem C2_witness : normalize_voting ("abcK".data) = 0 :=
  C2_amended.1 ("abcK".data) (by decide)

/-! ## C6 and C10: parse_duration -/

/-- C6: the Duration cleaning recognizes an hours component and a minutes
component independently and returns `hours*60 + minutes` minutes whenever
the extracted pair is not `(0, 0)`; `"2h 15m" ↦ 135`, `"2h" ↦ 120`,
`"45m" ↦ 45`, and an input in which neither component occurs produces the
imputation sentinel `none` rather than `0` or an error. -/
theorem C6_parse_duration :
    clean_duration ("2h 15m".data) = some 135 ∧
    clean_duration ("2h".data) = some 120 ∧
    clean_duration ("45m".data) = some 45 ∧
    (∀ l : Str, findNumBefore 'h' (hSpace l) = none →
      findNumBefore 'm' (hSpace l) = none → clean_duration l = none) ∧
    (∀ (l : Str) (hrs mins : ℕ),
      (findNumBefore 'h' (hSpace l)).getD 0 = hrs →
      (findNumBefore 'm' (hSpace l)).getD 0 = mins →
      hrs ≠ 0 ∨ mins ≠ 0 →
      clean_duration l = some ((hrs * 60 + mins : ℕ) : ℚ)) := by
  refine ⟨by decide, by decide, by decide, ?_, ?_⟩
  · intro l hh hm
    unfold clean_duration parse_duration
    rw [hh, hm]
    simp
  · intro l hrs mins hh hm hne
    unfold clean_duration parse_duration
    rw [hh, hm, if_pos hne]
    rfl

/-- C6, witness: the general `hours*60 + minutes` clause instantiated at
`"2h 15m"`. -/
theorem C6_witness : clean_duration ("2h 15m".data) = some ((2 * 60 + 15 : ℕ) : ℚ) :=
  C6_parse_duration.2.2.2.2 ("2h 15m".data) 2 15 (by decide) (by decide)
    (by decide)

/-- C10: whenever both extracted duration components are `0` — whether a
component is written as an explicit `0` or absent — `parse_duration`
returns the imputation sentinel `none`, not `0`; in particular `"0h 0m"`,
`"0h"` and `"0m"` all map to the sentinel even though their components are
present (`findNumBefore` returns `some 0` on them). -/
theorem C10_zero_components :
    (∀ l : Str, (findNumBefore 'h' (hSpace l)).getD 0 = 0 →
      (findNumBefore 'm' (hSpace l)).getD 0 = 0 → clean_duration l = none) ∧
    clean_duration ("0h 0m".data) = none ∧
    clean_duration ("0h".data) = none ∧
    clean_duration ("0m".data) = none ∧
    findNumBefore 'h' (hSpace ("0h 0m".data)) = some 0 ∧
    findNumBefore 'm' (hSpace ("0h 0m".data)) = some 0 := by
  refine ⟨?_, by decide, by decide, by decide, by decide, by decide⟩
  intro l hh hm
  unfold clean_duration parse_duration
  rw [hh, hm]
  simp

/-- C10, witness: the general clause instantiated at `"0h 0m"`. -/
theorem C10_witness : clean_duration ("0h 0m".data) = none :=
  C10_zero_components.1 ("0h 0m".data) (by decide) (by decide)

/-! ## C1: compute_score on an all-zero Voting batch -/

/-- C1: on a batch of three records whose Voting values are all `0` — so the
batch-wide maximum Voting is `0` — `compute_score` raises no error: it
returns normally and every record's `Voting_norm` and `Score` is the
non-finite float `NaN` (modelled `none`); in general, whenever the maximum
Voting is `0`, every output record has non-finite `Voting_norm` and
`Score`. -/
theorem C1_zero_max_voting :
    ((compute_score
        [⟨"a".data, "g".data, 5, 0, some 100⟩,
         ⟨"b".data, "g".data, 7, 0, some 90⟩,
         ⟨"c".data, "g".data, 3, 0, some 80⟩]).map
      (fun r => (r.votingNorm, r.score)) =
      [(none, none), (none, none), (none, none)]) ∧
    (∀ l : List CleanRecord, votingMax l = 0 →
      ∀ r ∈ compute_score l, r.votingNorm = none ∧ r.score = none) := by
  refine ⟨by decide, ?_⟩
  intro l hmax r hr
  simp only [compute_score] at hr
  rcases List.mem_map.mp hr with ⟨b, _, rfl⟩
  simp [pdDiv, hmax]

/-- C1, witness: the general clause instantiated at a one-record batch with
Voting `0`. -/
theorem C1_witness :
    (⟨"a".data, "g".data, 5, 0, some 100, none, 1 / 2, none⟩ : ScoredRecord).votingNorm
        = none ∧
    (⟨"a".data, "g".data, 5, 0, some 100, none, 1 / 2, none⟩ : ScoredRecord).score
        = none :=
  C1_zero_max_voting.2 [⟨"a".data, "g".data, 5, 0, some 100⟩]
    (by simp [votingMax])
    ⟨"a".data, "g".data, 5, 0, some 100, none, 1 / 2, none⟩
    (by simp [compute_score, votingMax, pdDiv]; norm_num)

/-! ## C5: impute_duration -/

/-- C5: `impute_duration` replaces every missing Duration with the
arithmetic mean of the defined Duration values of the whole batch
(`(100 + 140) / 2 = 120` in the second conjunct), but on a batch with zero
defined Duration values it signals no error: the batch mean is itself `NaN`
and every Duration silently stays `NaN` (modelled `none`). -/
theorem C5_impute_duration :
    ((impute_duration
        [⟨"a".data, "g".data, 5, 3, none⟩,
         ⟨"b".data, "g".data, 6, 4, none⟩]).map (fun r => r.duration) =
      [none, none]) ∧
    ((impute_duration
        [⟨"a".data, "g".data, 5, 3, some 100⟩,
         ⟨"b".data, "g".data, 6, 4, some 140⟩,
         ⟨"c".data, "g".data, 7, 5, none⟩]).map (fun r => r.duration) =
      [some 100, some 140, some 120]) := by
  constructor
  · decide
  · simp [impute_duration]
    norm_num

/-! ## C4: filter_data -/

theorem boolIndex_map (l : List ScoredRecord) (p : ScoredRecord → Bool) :
    boolIndex l (l.map p) = l.filter p := by
  induction l with
  | nil => rfl
  | cons x xs ih =>
    simp only [List.map_cons, boolIndex, List.filter_cons]
    by_cases hp : p x
    · rw [if_pos hp, if_pos hp, ih]
    · rw [if_neg hp, if_neg hp, ih]

theorem zipWith_and_map (l : List ScoredRecord) (f g : ScoredRecord → Bool) :
    List.zipWith and (l.map f) (l.map g) = l.map (fun x => f x && g x) := by
  induction l with
  | nil => rfl
  | cons x xs ih => simp only [List.map_cons, List.zipWith_cons_cons, ih]

/-- C4: for every batch and every filter specification, a record is in the
`filter_data` output iff it belongs to the batch and satisfies all four
predicates — genre membership, inclusive rating range, inclusive voting
range and inclusive duration range (a `NaN` duration satisfies no range) —
and the output preserves the relative order of the source batch (it is a
sublist of it). -/
theorem C4_filter_data :
    ∀ (l : List ScoredRecord) (gs : List Str) (rmin rmax : ℚ) (v d : ℚ × ℚ),
      (∀ r : ScoredRecord, r ∈ filter_data l gs rmin rmax v d ↔
        (r ∈ l ∧ r.genre ∈ gs ∧ (rmin ≤ r.rating ∧ r.rating ≤ rmax) ∧
         (v.1 ≤ r.voting ∧ r.voting ≤ v.2) ∧
         (∃ dd, r.duration = some dd ∧ d.1 ≤ dd ∧ dd ≤ d.2))) ∧
      List.Sublist (filter_data l gs rmin rmax v d) l := by
  intro l gs rmin rmax v d
  have hfd : filter_data l gs rmin rmax v d = l.filter (fun r =>
      ((decide (r.genre ∈ gs) && decide (rmin ≤ r.rating ∧ r.rating ≤ rmax)) &&
        decide (v.1 ≤ r.voting ∧ r.voting ≤ v.2)) &&
      (match r.duration with
        | none => false
        | some dd => decide (d.1 ≤ dd ∧ dd ≤ d.2))) := by
    simp only [filter_data]
    rw [zipWith_and_map, zipWith_and_map, zipWith_and_map, boolIndex_map]
  constructor
  · intro r
    rw [hfd, List.mem_filter]
    constructor
    · rintro ⟨hmem, hp⟩
      simp only [Bool.and_eq_true, decide_eq_true_eq] at hp
      obtain ⟨⟨⟨h1, h2⟩, h3⟩, h4⟩ := hp
      refine ⟨hmem, h1, h2, h3, ?_⟩
      cases hdur : r.duration with
      | none => rw [hdur] at h4; exact absurd h4 (by simp)
      | some dd =>
        rw [hdur] at h4
        exact ⟨dd, rfl, by simpa using h4⟩
    · rintro ⟨hmem, h1, h2, h3, dd, hdd, h4⟩
      refine ⟨hmem, ?_⟩
      simp only [Bool.and_eq_true, decide_eq_true_eq]
      refine ⟨⟨⟨h1, h2⟩, h3⟩, ?_⟩
      rw [hdd]
      simpa using h4
  · rw [hfd]
    exact List.filter_sublist l

/-! ## C7: extremes on an empty subset -/

theorem minStep_isSome_left (acc : Option (ScoredRecord × ℚ)) (r : ScoredRecord)
    (h : acc.isSome) : (minStep acc r).isSome := by
  unfold minStep
  cases r.duration with
  | none => exact h
  | some d =>
    cases acc with
    | none => rfl
    | some p =>
      obtain ⟨b, bd⟩ := p
      by_cases hlt : d < bd <;> simp [hlt]

theorem minStep_isSome_right (acc : Option (ScoredRecord × ℚ)) (r : ScoredRecord)
    (h : r.duration.isSome) : (minStep acc r).isSome := by
  unfold minStep
  cases hd : r.duration with
  | none => rw [hd] at h; exact absurd h (by simp)
  | some d =>
    cases acc with
    | none => rfl
    | some p =>
      obtain ⟨b, bd⟩ := p
      by_cases hlt : d < bd <;> simp [hlt]

theorem maxStep_isSome_left (acc : Option (ScoredRecord × ℚ)) (r : ScoredRecord)
    (h : acc.isSome) : (maxStep acc r).isSome := by
  unfold maxStep
  cases r.duration with
  | none => exact h
  | some d =>
    cases acc with
    | none => rfl
    | some p =>
      obtain ⟨b, bd⟩ := p
      by_cases hlt : bd < d <;> simp [hlt]

theorem maxStep_isSome_right (acc : Option (ScoredRecord × ℚ)) (r : ScoredRecord)
    (h : r.duration.isSome) : (maxStep acc r).isSome := by
  unfold maxStep
  cases hd : r.duration with
  | none => rw [hd] at h; exact absurd h (by simp)
  | some d =>
    cases acc with
    | none => rfl
    | some p =>
      obtain ⟨b, bd⟩ := p
      by_cases hlt : bd < d <;> simp [hlt]

theorem foldl_step_isSome
    (step : Option (ScoredRecord × ℚ) → ScoredRecord → Option (ScoredRecord × ℚ))
    (hkeep : ∀ acc r, acc.isSome → (step acc r).isSome)
    (hnew : ∀ acc r, r.duration.isSome → (step acc r).isSome) :
    ∀ (l : List ScoredRecord) (acc : Option (ScoredRecord × ℚ)),
      ((∃ r ∈ l, r.duration.isSome) ∨ acc.isSome) → (l.foldl step acc).isSome := by
  intro l
  induction l with
  | nil =>
    intro acc h
    rcases h with ⟨r, hr, _⟩ | h
    · exact absurd hr (List.not_mem_nil r)
    · exact h
  | cons x xs ih =>
    intro acc h
    rw [List.foldl_cons]
    apply ih
    rcases h with ⟨r, hr, hdef⟩ | hacc
    · rcases List.mem_cons.mp hr with rfl | hr2
      · exact Or.inr (hnew acc r hdef)
      · exact Or.inl ⟨r, hr2, hdef⟩
    · exact Or.inr (hkeep acc x hacc)

/-- C7, counterexample: in `visualization_app.py` the shortest/longest
computation has no emptiness guard, so on the empty subset `idxmin` raises
`ValueError` (modelled `Except.error`) instead of returning an explicit
"no data" result — refuting the claim for that implementation. -/
theorem C7_counterexample :
    shortest_longest_vis [] =
      Except.error "attempt to get argmin of an empty sequence" := rfl

/-- C7, amended: `filteratiom_app.py` guards the extremes computation: on
the empty subset it returns the explicit "No movies match the filters."
marker (`Except.ok none`), and on any non-empty subset with at least one
defined Duration it returns both extreme records; `visualization_app.py`
has no guard and raises on the empty subset. -/
theorem C7_amended :
    shortest_longest_fil ([] : List ScoredRecord) = Except.ok none ∧
    (∀ l : List ScoredRecord, l ≠ [] → (∃ r ∈ l, r.duration.isSome) →
      ∃ p, shortest_longest_fil l = Except.ok (some p)) ∧
    shortest_longest_vis ([] : List ScoredRecord) =
      Except.error "attempt to get argmin of an empty sequence" := by
  refine ⟨rfl, ?_, rfl⟩
  intro l hne hdef
  have hmin : (idx_min l).isSome := by
    unfold idx_min
    rw [Option.isSome_map']
    exact foldl_step_isSome minStep minStep_isSome_left minStep_isSome_right l none
      (Or.inl hdef)
  have hmax : (idx_max l).isSome := by
    unfold idx_max
    rw [Option.isSome_map']
    exact foldl_step_isSome maxStep maxStep_isSome_left maxStep_isSome_right l none
      (Or.inl hdef)
  obtain ⟨a, ha⟩ := Option.isSome_iff_exists.mp hmin
  obtain ⟨b, hb⟩ := Option.isSome_iff_exists.mp hmax
  refine ⟨(a, b), ?_⟩
  unfold shortest_longest_fil
  rw [if_neg (by simpa [List.isEmpty_iff] using hne), ha, hb]

/-- C7, witness: the guarded extremes applied to a concrete one-record
subset. -/
theorem C7_witness :
    ∃ p, shortest_longest_fil
        [⟨"a".data, "g".data, 5, 3, some 90, some 1, 1 / 2, some 1⟩] =
      Except.ok (some p) :=
  C7_amended.2.1 [⟨"a".data, "g".data, 5, 3, some 90, some 1, 1 / 2, some 1⟩]
    (by simp)
    ⟨⟨"a".data, "g".data, 5, 3, some 90, some 1, 1 / 2, some 1⟩, by simp, rfl⟩

/-! ## C8: field invariants of the cleaned batch -/

theorem dedupTitlesAux_sublist (l : List ScoredRecord) :
    ∀ seen : List Str, List.Sublist (dedupTitlesAux seen l) l := by
  induction l with
  | nil => intro seen; exact List.Sublist.refl []
  | cons x xs ih =>
    intro seen
    rw [dedupTitlesAux]
    by_cases hx : x.title ∈ seen
    · rw [if_pos hx]; exact (ih seen).cons x
    · rw [if_neg hx]; exact (ih _).cons₂ x

theorem mem_deduplicate {c : ScoredRecord} {l : List ScoredRecord}
    (h : c ∈ deduplicate l) : c ∈ l := by
  unfold deduplicate at h
  exact (List.mem_insertionSort votingGe).mp
    ((dedupTitlesAux_sublist _ _).subset h)

theorem mem_compute_score {c : ScoredRecord} {l : List CleanRecord}
    (h : c ∈ compute_score l) :
    ∃ b ∈ l, c.voting = b.voting ∧ c.rating = b.rating := by
  simp only [compute_score] at h
  rcases List.mem_map.mp h with ⟨b, hb, rfl⟩
  exact ⟨b, hb, rfl, rfl⟩

theorem mem_impute_duration {c : CleanRecord} {l : List CleanRecord}
    (h : c ∈ impute_duration l) :
    ∃ b ∈ l, c.voting = b.voting ∧ c.rating = b.rating := by
  simp only [impute_duration] at h
  rcases List.mem_map.mp h with ⟨b, hb, rfl⟩
  exact ⟨b, hb, rfl, rfl⟩

/-- C8, counterexample: a raw record whose Rating text is the numeric
literal `"11"` produces a cleaned record with Rating `11 ∉ [0, 10]` — the
code performs no clamping, so the claimed `Rating ∈ [0,10] ∪ \x7b0\x7d`
invariant is false. -/
theorem C8_counterexample :
    ((load_movies_data [⟨"t".data, "g".data, "11".data, "3".data, "1h".data⟩]).map
      (fun r => r.rating) = [11]) ∧ ¬ ((11 : ℚ) ≤ 10) := by
  constructor
  · have h1 : (load_movies_data
        [⟨"t".data, "g".data, "11".data, "3".data, "1h".data⟩]).map
          (fun r => r.rating) = [normalize_rating ("11".data)] := rfl
    have h2 : parseDecimalRep (pyStrip ("11".data)) = some ⟨false, 11, 0, 0⟩ := by
      decide
    rw [h1]
    unfold normalize_rating
    rw [h2]
    simp [repVal]
  · norm_num

/-- C8, amended: every cleaned record has a Voting that is a non-negative
integer (a natural number cast into the float column) — also through the
whole pipeline — and its Rating is `0` when the raw text is not a numeric
literal, while a numeric literal passes through unclamped (so no `[0,10]`
range invariant holds for Rating). -/
theorem C8_amended :
    (∀ raw : RawRecord,
      0 ≤ (cleanFields raw).voting ∧
      (∃ n : ℕ, (cleanFields raw).voting = (n : ℚ)) ∧
      (parseDecimalRep (pyStrip raw.rating) = none → (cleanFields raw).rating = 0) ∧
      (∀ rep : DecRep, parseDecimalRep (pyStrip raw.rating) = some rep →
        (cleanFields raw).rating = repVal rep)) ∧
    (∀ (raws : List RawRecord) (c : ScoredRecord), c ∈ load_movies_data raws →
      0 ≤ c.voting ∧ ∃ n : ℕ, c.voting = (n : ℚ)) := by
  constructor
  · intro raw
    refine ⟨?_, ⟨normalize_voting raw.voting, rfl⟩, ?_, ?_⟩
    · exact Nat.cast_nonneg _
    · intro hnone
      simp only [cleanFields]
      unfold normalize_rating
      rw [hnone]
    · intro rep hsome
      simp only [cleanFields]
      unfold normalize_rating
      rw [hsome]
  · intro raws c hc
    rcases mem_compute_score (mem_deduplicate hc) with ⟨b, hb, hvb, _⟩
    rcases mem_impute_duration hb with ⟨a, ha, hva, _⟩
    rcases List.mem_map.mp ha with ⟨raw, _, rfl⟩
    rw [hvb, hva]
    exact ⟨Nat.cast_nonneg _, ⟨normalize_voting raw.voting, rfl⟩⟩

/-- C8, witness: the amended theorem applied to a record with the
non-numeric Rating text `"abc"` and Voting text `"12"` (per-record
clauses), and to the one-record batch it generates (batch clause). -/
theorem C8_witness :
    (cleanFields ⟨"t".data, "g".data, "abc".data, "0".data, "2h".data⟩).rating = 0 ∧
    0 ≤ (⟨"t".data, "g".data, 0, 0, some 120, none, 0 / 10, none⟩ : ScoredRecord).voting ∧
    ∃ n : ℕ,
      (⟨"t".data, "g".data, 0, 0, some 120, none, 0 / 10, none⟩ : ScoredRecord).voting
        = (n : ℚ) :=
  ⟨(C8_amended.1 ⟨"t".data, "g".data, "abc".data, "0".data, "2h".data⟩).2.2.1
      (by decide),
   C8_amended.2 [⟨"t".data, "g".data, "abc".data, "0".data, "2h".data⟩]
     ⟨"t".data, "g".data, 0, 0, some 120, none, 0 / 10, none⟩
     (List.mem_singleton.mpr rfl)⟩

/-! ## C3: deduplicate -/

theorem dedupTitlesAux_title_not_seen {x : ScoredRecord} :
    ∀ (l : List ScoredRecord) (seen : List Str),
      x ∈ dedupTitlesAux seen l → x.title ∉ seen := by
  intro l
  induction l with
  | nil => intro seen h; exact absurd h (List.not_mem_nil x)
  | cons a t ih =>
    intro seen h
    rw [dedupTitlesAux] at h
    by_cases ha : a.title ∈ seen
    · rw [if_pos ha] at h
      exact ih seen h
    · rw [if_neg ha] at h
      rcases List.mem_cons.mp h with rfl | h2
      · exact ha
      · exact fun hx => ih _ h2 (List.mem_cons_of_mem _ hx)

theorem dedupTitlesAux_titles_nodup :
    ∀ (l : List ScoredRecord) (seen : List Str),
      ((dedupTitlesAux seen l).map (fun x => x.title)).Nodup := by
  intro l
  induction l with
  | nil => intro seen; simp [dedupTitlesAux]
  | cons a t ih =>
    intro seen
    rw [dedupTitlesAux]
    by_cases ha : a.title ∈ seen
    · rw [if_pos ha]
      exact ih seen
    · rw [if_neg ha, List.map_cons]
      refine List.nodup_cons.mpr ⟨?_, ih _⟩
      intro hmem
      rcases List.mem_map.mp hmem with ⟨y, hy, hty⟩
      exact dedupTitlesAux_title_not_seen t _ hy
        (by rw [hty]; exact List.mem_cons_self _ _)

theorem dedupTitlesAux_first {x : ScoredRecord} :
    ∀ (l : List ScoredRecord) (seen : List Str), x ∈ dedupTitlesAux seen l →
      ∃ l1 l2, l = l1 ++ x :: l2 ∧ ∀ y ∈ l1, y.title = x.title → y.title ∈ seen := by
  intro l
  induction l with
  | nil => intro seen h; exact absurd h (List.not_mem_nil x)
  | cons a t ih =>
    intro seen h
    rw [dedupTitlesAux] at h
    by_cases ha : a.title ∈ seen
    · rw [if_pos ha] at h
      rcases ih seen h with ⟨l1, l2, heq, hfirst⟩
      refine ⟨a :: l1, l2, by rw [heq, List.cons_append], ?_⟩
      intro y hy hty
      rcases List.mem_cons.mp hy with rfl | hy2
      · exact ha
      · exact hfirst y hy2 hty
    · rw [if_neg ha] at h
      rcases List.mem_cons.mp h with rfl | h2
      · exact ⟨[], t, rfl, fun y hy _ => absurd hy (List.not_mem_nil y)⟩
      · rcases ih _ h2 with ⟨l1, l2, heq, hfirst⟩
        have hxt : x.title ∉ a.title :: seen := dedupTitlesAux_title_not_seen t _ h2
        refine ⟨a :: l1, l2, by rw [heq, List.cons_append], ?_⟩
        intro y hy hty
        rcases List.mem_cons.mp hy with rfl | hy2
        · exact absurd hty
            (fun he => hxt (by rw [← he]; exact List.mem_cons_self _ _))
        · rcases List.mem_cons.mp (hfirst y hy2 hty) with h3 | h3
          · exact absurd (hty.symm.trans h3)
              (fun he => hxt (by rw [← he]; exact List.mem_cons_self _ _))
          · exact h3

theorem dedupTitlesAux_complete {s : ScoredRecord} :
    ∀ (l : List ScoredRecord) (seen : List Str), s ∈ l → s.title ∉ seen →
      ∃ q ∈ dedupTitlesAux seen l, q.title = s.title := by
  intro l
  induction l with
  | nil => intro seen h _; exact absurd h (List.not_mem_nil s)
  | cons a t ih =>
    intro seen hs hns
    rw [dedupTitlesAux]
    by_cases ha : a.title ∈ seen
    · rw [if_pos ha]
      rcases List.mem_cons.mp hs with rfl | h2
      · exact absurd ha hns
      · exact ih seen h2 hns
    · rw [if_neg ha]
      by_cases hat : s.title = a.title
      · exact ⟨a, List.mem_cons_self _ _, hat.symm⟩
      · rcases List.mem_cons.mp hs with rfl | h2
        · exact absurd rfl hat
        · have hns2 : s.title ∉ a.title :: seen := by
            intro hm
            rcases List.mem_cons.mp hm with h3 | h3
            · exact hat h3
            · exact hns h3
          rcases ih _ h2 hns2 with ⟨q, hq, hqt⟩
          exact ⟨q, List.mem_cons_of_mem _ hq, hqt⟩

/-- The executable sort used inside `deduplicate` is one admissible
implementation: it satisfies the program's guarantee `sort_values_desc`. -/
theorem insertionSort_sort_values_desc (l : List ScoredRecord) :
    sort_values_desc l (List.insertionSort votingGe l) :=
  ⟨List.perm_insertionSort votingGe l, List.sorted_insertionSort votingGe l⟩

/-- C3 (amended): for EVERY sort output `s` that
`sort_values(by=['Voting'], ascending=False)` may produce (any permutation
of the batch in descending Voting order — the default quicksort guarantees
nothing about the relative order of equal-Voting rows), keeping the first
row per Title gives: pairwise-distinct Titles, output ordered by descending
Voting rather than original input order, only records of the input, a kept
record has the maximal Voting among all same-Title records of the batch,
and every Title of the batch survives.  No first-in-original-order
tie-break among equal-Voting duplicates is stated: the program does not
guarantee one. -/
theorem C3_deduplicate_any_sort (l s : List ScoredRecord) (r q : ScoredRecord)
    (hsort : sort_values_desc l s) (hr : r ∈ dedupTitlesAux [] s)
    (hq : q ∈ l) :
    ((dedupTitlesAux [] s).map (fun x => x.title)).Nodup ∧
    (dedupTitlesAux [] s).Pairwise votingGe ∧
    r ∈ l ∧
    (q.title = r.title → q.voting ≤ r.voting) ∧
    (∃ p ∈ dedupTitlesAux [] s, p.title = q.title) := by
  obtain ⟨hperm, hpair⟩ := hsort
  obtain ⟨l1, l2, heq, hfirst⟩ := dedupTitlesAux_first _ _ hr
  have hl1 : ∀ y ∈ l1, y.title ≠ r.title := fun y hy hty =>
    absurd (hfirst y hy hty) (List.not_mem_nil _)
  have hpairs := heq ▸ hpair
  have htail : ∀ y ∈ l2, y.voting ≤ r.voting := by
    intro y hy
    have h2 := (List.pairwise_append.mp hpairs).2.1
    exact List.rel_of_pairwise_cons h2 hy
  have hqs : q ∈ s := hperm.mem_iff.mpr hq
  refine ⟨dedupTitlesAux_titles_nodup _ _,
    List.Pairwise.sublist (dedupTitlesAux_sublist _ _) hpair,
    hperm.subset ((dedupTitlesAux_sublist _ _).subset hr), ?_, ?_⟩
  · intro hts
    have hss : q ∈ l1 ++ r :: l2 := heq ▸ hqs
    rcases List.mem_append.mp hss with h1 | h1
    · exact absurd hts (hl1 q h1)
    · rcases List.mem_cons.mp h1 with rfl | h1
      · exact le_refl _
      · exact htail q h1
  · exact dedupTitlesAux_complete _ [] hqs (List.not_mem_nil _)

/-- C3, counterexample: the program's sort guarantees only a descending
permutation (`sort_values_desc`), not stability.  On a concrete batch of
two same-Title records with equal (maximal) Voting, both orders of the
pair satisfy that guarantee, and they keep DIFFERENT records — the second
order (the reversed stable ascending argsort, which is exactly how pandas
produces a descending sort) keeps the record that comes LAST in the
original batch.  So the claimed stable sort with first-in-original-order
tie-break is not a property of the program. -/
theorem C3_counterexample :
    sort_values_desc
      [⟨"a".data, "g".data, 1, 5, some 90, none, 0, none⟩,
       ⟨"a".data, "g".data, 2, 5, some 80, none, 0, none⟩]
      [⟨"a".data, "g".data, 1, 5, some 90, none, 0, none⟩,
       ⟨"a".data, "g".data, 2, 5, some 80, none, 0, none⟩] ∧
    sort_values_desc
      [⟨"a".data, "g".data, 1, 5, some 90, none, 0, none⟩,
       ⟨"a".data, "g".data, 2, 5, some 80, none, 0, none⟩]
      [⟨"a".data, "g".data, 2, 5, some 80, none, 0, none⟩,
       ⟨"a".data, "g".data, 1, 5, some 90, none, 0, none⟩] ∧
    dedupTitlesAux []
      [⟨"a".data, "g".data, 1, 5, some 90, none, 0, none⟩,
       ⟨"a".data, "g".data, 2, 5, some 80, none, 0, none⟩] =
      [⟨"a".data, "g".data, 1, 5, some 90, none, 0, none⟩] ∧
    dedupTitlesAux []
      [⟨"a".data, "g".data, 2, 5, some 80, none, 0, none⟩,
       ⟨"a".data, "g".data, 1, 5, some 90, none, 0, none⟩] =
      [⟨"a".data, "g".data, 2, 5, some 80, none, 0, none⟩] ∧
    (⟨"a".data, "g".data, 1, 5, some 90, none, 0, none⟩ : ScoredRecord) ≠
      ⟨"a".data, "g".data, 2, 5, some 80, none, 0, none⟩ := by
  refine ⟨by decide, by decide, by decide, by decide, by decide⟩

/-- C3, witness: the sort-agnostic deduplication theorem applied to a
concrete batch with a duplicated Title `"a"` (Votings 1 and 9) and a
Title `"b"`, with a concrete descending sort output of it. -/
theorem C3_witness :
    ((dedupTitlesAux []
        [⟨"a".data, "g".data, 0, 9, some 90, none, 0, none⟩,
         ⟨"b".data, "g".data, 0, 5, some 90, none, 0, none⟩,
         ⟨"a".data, "g".data, 0, 1, some 90, none, 0, none⟩]).map
      (fun x => x.title)).Nodup ∧
    (dedupTitlesAux []
        [⟨"a".data, "g".data, 0, 9, some 90, none, 0, none⟩,
         ⟨"b".data, "g".data, 0, 5, some 90, none, 0, none⟩,
         ⟨"a".data, "g".data, 0, 1, some 90, none, 0, none⟩]).Pairwise votingGe ∧
    (⟨"a".data, "g".data, 0, 9, some 90, none, 0, none⟩ : ScoredRecord) ∈
      ([⟨"a".data, "g".data, 0, 1, some 90, none, 0, none⟩,
        ⟨"b".data, "g".data, 0, 5, some 90, none, 0, none⟩,
        ⟨"a".data, "g".data, 0, 9, some 90, none, 0, none⟩] : List ScoredRecord) ∧
    ((⟨"b".data, "g".data, 0, 5, some 90, none, 0, none⟩ : ScoredRecord).title =
        (⟨"a".data, "g".data, 0, 9, some 90, none, 0, none⟩ : ScoredRecord).title →
      (⟨"b".data, "g".data, 0, 5, some 90, none, 0, none⟩ : ScoredRecord).voting ≤
        (⟨"a".data, "g".data, 0, 9, some 90, none, 0, none⟩ : ScoredRecord).voting) ∧
    (∃ p ∈ dedupTitlesAux []
        [⟨"a".data, "g".data, 0, 9, some 90, none, 0, none⟩,
         ⟨"b".data, "g".data, 0, 5, some 90, none, 0, none⟩,
         ⟨"a".data, "g".data, 0, 1, some 90, none, 0, none⟩],
      p.title = (⟨"b".data, "g".data, 0, 5, some 90, none, 0,
          none⟩ : ScoredRecord).title) :=
  C3_deduplicate_any_sort
    [⟨"a".data, "g".data, 0, 1, some 90, none, 0, none⟩,
     ⟨"b".data, "g".data, 0, 5, some 90, none, 0, none⟩,
     ⟨"a".data, "g".data, 0, 9, some 90, none, 0, none⟩]
    [⟨"a".data, "g".data, 0, 9, some 90, none, 0, none⟩,
     ⟨"b".data, "g".data, 0, 5, some 90, none, 0, none⟩,
     ⟨"a".data, "g".data, 0, 1, some 90, none, 0, none⟩]
    ⟨"a".data, "g".data, 0, 9, some 90, none, 0, none⟩
    ⟨"b".data, "g".data, 0, 5, some 90, none, 0, none⟩
    (by decide) (by decide) (by decide)

/-! ## C9 helper lemmas: characters, digits, strip and lower -/

theorem toNat_ofNat_valid {n : ℕ} (h : n < 55296) : (Char.ofNat n).toNat = n := by
  unfold Char.ofNat
  rw [dif_pos (Or.inl h)]
  rfl

theorem isDigit_toNat {c : Char} (h : c.isDigit = true) :
    48 ≤ c.toNat ∧ c.toNat ≤ 57 := by
  unfold Char.isDigit at h
  rw [Bool.and_eq_true, decide_eq_true_eq, decide_eq_true_eq] at h
  exact ⟨h.1, h.2⟩

theorem digit_char_isDigit {d : ℕ} (h : d < 10) :
    (Char.ofNat (48 + d)).isDigit = true := by
  interval_cases d <;> decide

theorem digitVal_digit_char {d : ℕ} (h : d < 10) :
    digitVal (Char.ofNat (48 + d)) = d := by
  interval_cases d <;> decide

theorem digitVal_le_9 {c : Char} (h : c.isDigit = true) : digitVal c ≤ 9 := by
  have := isDigit_toNat h
  unfold digitVal
  omega

theorem natDigits_ne_nil (n : ℕ) : natDigits n ≠ [] := by
  rw [natDigits]
  by_cases h : n < 10
  · rw [dif_pos h]; simp
  · rw [dif_neg h]; simp

theorem natDigits_all_digit : ∀ n : ℕ, ∀ c ∈ natDigits n, c.isDigit = true := by
  intro n
  induction n using Nat.strong_induction_on with
  | _ n ih =>
    intro c hc
    by_cases h : n < 10
    · rw [natDigits, dif_pos h] at hc
      rw [List.mem_singleton.mp hc]
      exact digit_char_isDigit h
    · rw [natDigits, dif_neg h] at hc
      rcases List.mem_append.mp hc with h1 | h1
      · exact ih (n / 10) (Nat.div_lt_self (by omega) (by omega)) c h1
      · rw [List.mem_singleton.mp h1]
        exact digit_char_isDigit (Nat.mod_lt _ (by omega))

theorem digitsVal_append_last (A : Str) (c : Char) :
    digitsVal (A ++ [c]) = 10 * digitsVal A + digitVal c := by
  unfold digitsVal
  rw [List.foldl_append]
  rfl

theorem digitsVal_natDigits : ∀ n : ℕ, digitsVal (natDigits n) = n := by
  intro n
  induction n using Nat.strong_induction_on with
  | _ n ih =>
    by_cases h : n < 10
    · rw [natDigits, dif_pos h]
      unfold digitsVal
      rw [List.foldl_cons, List.foldl_nil]
      have := digitVal_digit_char h
      omega
    · rw [natDigits, dif_neg h, digitsVal_append_last]
      rw [ih (n / 10) (Nat.div_lt_self (by omega) (by omega))]
      rw [digitVal_digit_char (Nat.mod_lt _ (by omega))]
      omega

theorem natDigits_length_le : ∀ n k : ℕ, n < 10 ^ k → 1 ≤ k →
    (natDigits n).length ≤ k := by
  intro n
  induction n using Nat.strong_induction_on with
  | _ n ih =>
    intro k hn hk
    by_cases h : n < 10
    · rw [natDigits, dif_pos h]
      simpa using hk
    · rw [natDigits, dif_neg h, List.length_append, List.length_singleton]
      have hk2 : 2 ≤ k := by
        by_contra hlt
        have hk1 : k = 1 := by omega
        rw [hk1, pow_one] at hn
        omega
      have hdiv : n / 10 < 10 ^ (k - 1) := by
        rw [Nat.div_lt_iff_lt_mul (by omega : 0 < 10)]
        calc n < 10 ^ k := hn
          _ = 10 ^ (k - 1) * 10 := by
            rw [← pow_succ]
            congr 1
            omega
      have := ih (n / 10) (Nat.div_lt_self (by omega) (by omega)) (k - 1) hdiv
        (by omega)
      omega

theorem digitsVal_replicate_zero (j : ℕ) (D : Str) :
    digitsVal (List.replicate j '0' ++ D) = digitsVal D := by
  induction j with
  | zero => rfl
  | succ m ih =>
    rw [List.replicate_succ, List.cons_append]
    unfold digitsVal
    rw [List.foldl_cons]
    have h0 : 10 * 0 + digitVal '0' = 0 := by decide
    rw [h0]
    exact ih

theorem digitsVal_lt_pow : ∀ D : Str, (∀ c ∈ D, c.isDigit = true) →
    digitsVal D < 10 ^ D.length := by
  have aux : ∀ (D : Str) (a : ℕ), (∀ c ∈ D, c.isDigit = true) →
      D.foldl (fun x c => 10 * x + digitVal c) a < (a + 1) * 10 ^ D.length := by
    intro D
    induction D with
    | nil => intro a _; simp
    | cons c t ih =>
      intro a hD
      rw [List.foldl_cons, List.length_cons]
      have hc : digitVal c ≤ 9 := digitVal_le_9 (hD c (List.mem_cons_self _ _))
      have ht := ih (10 * a + digitVal c)
        (fun d hd => hD d (List.mem_cons_of_mem _ hd))
      calc List.foldl (fun x c => 10 * x + digitVal c) (10 * a + digitVal c) t
          < (10 * a + digitVal c + 1) * 10 ^ t.length := ht
        _ ≤ ((a + 1) * 10) * 10 ^ t.length := by
            apply Nat.mul_le_mul_right
            omega
        _ = (a + 1) * 10 ^ (t.length + 1) := by ring
  intro D hD
  have := aux D 0 hD
  simpa using this

theorem padZeros_all_digit {D : Str} (hD : ∀ c ∈ D, c.isDigit = true) (k : ℕ) :
    ∀ c ∈ padZeros k D, c.isDigit = true := by
  intro c hc
  unfold padZeros at hc
  rcases List.mem_append.mp hc with h1 | h1
  · rw [List.eq_of_mem_replicate h1]; decide
  · exact hD c h1

theorem padZeros_length {D : Str} {k : ℕ} (h : D.length ≤ k) :
    (padZeros k D).length = k := by
  unfold padZeros
  rw [List.length_append, List.length_replicate]
  omega

theorem digitsVal_padZeros (k : ℕ) (D : Str) :
    digitsVal (padZeros k D) = digitsVal D :=
  digitsVal_replicate_zero _ _

theorem takeWhile_append_not {p : Char → Bool} :
    ∀ (A : Str) (x : Char) (B : Str), (∀ a ∈ A, p a = true) → p x = false →
      (A ++ x :: B).takeWhile p = A := by
  intro A x B
  induction A with
  | nil => intro _ hx; simp [List.takeWhile_cons, hx]
  | cons a t ih =>
    intro hA hx
    have ha : p a = true := hA a (List.mem_cons_self _ _)
    simp only [List.cons_append, List.takeWhile_cons, ha, if_true]
    rw [ih (fun b hb => hA b (List.mem_cons_of_mem _ hb)) hx]

theorem dropWhile_append_not {p : Char → Bool} :
    ∀ (A : Str) (x : Char) (B : Str), (∀ a ∈ A, p a = true) → p x = false →
      (A ++ x :: B).dropWhile p = x :: B := by
  intro A x B
  induction A with
  | nil => intro _ hx; simp [List.dropWhile_cons, hx]
  | cons a t ih =>
    intro hA hx
    have ha : p a = true := hA a (List.mem_cons_self _ _)
    simp only [List.cons_append, List.dropWhile_cons, ha, if_true]
    exact ih (fun b hb => hA b (List.mem_cons_of_mem _ hb)) hx

theorem takeWhile_all {p : Char → Bool} :
    ∀ A : Str, (∀ a ∈ A, p a = true) → A.takeWhile p = A := by
  intro A
  induction A with
  | nil => intro _; rfl
  | cons a t ih =>
    intro hA
    simp only [List.takeWhile_cons, hA a (List.mem_cons_self _ _), if_true]
    rw [ih (fun b hb => hA b (List.mem_cons_of_mem _ hb))]

theorem dropWhile_all {p : Char → Bool} :
    ∀ A : Str, (∀ a ∈ A, p a = true) → A.dropWhile p = [] := by
  intro A
  induction A with
  | nil => intro _; rfl
  | cons a t ih =>
    intro hA
    simp only [List.dropWhile_cons, hA a (List.mem_cons_self _ _), if_true]
    exact ih (fun b hb => hA b (List.mem_cons_of_mem _ hb))

theorem dropWhile_eq_self_of_all {p : Char → Bool} {l : Str}
    (h : ∀ c ∈ l, p c = false) : l.dropWhile p = l := by
  cases l with
  | nil => rfl
  | cons a t => simp [List.dropWhile_cons, h a (List.mem_cons_self _ _)]

theorem pySpaceChar_true_elim {c : Char} (h : pySpaceChar c = true) :
    c = ' ' ∨ c = '\t' ∨ c = '\n' ∨ c = '\x0d' ∨ c = '\x0b' ∨ c = '\x0c' := by
  simp only [pySpaceChar, Bool.or_eq_true, decide_eq_true_eq] at h
  tauto

theorem pySpaceChar_false_of_toNat {c : Char} (h1 : 33 ≤ c.toNat) :
    pySpaceChar c = false := by
  cases hb : pySpaceChar c
  · rfl
  · exfalso
    rcases pySpaceChar_true_elim hb with rfl | rfl | rfl | rfl | rfl | rfl <;>
      exact absurd h1 (by decide)

theorem pySpaceChar_of_isDigit {c : Char} (h : c.isDigit = true) :
    pySpaceChar c = false :=
  pySpaceChar_false_of_toNat (by have := isDigit_toNat h; omega)

theorem pyStrip_of_no_space {l : Str} (h : ∀ c ∈ l, pySpaceChar c = false) :
    pyStrip l = l := by
  unfold pyStrip stripBack
  rw [dropWhile_eq_self_of_all h,
    dropWhile_eq_self_of_all (fun c hc => h c (List.mem_reverse.mp hc)),
    List.reverse_reverse]

theorem dropWhile_dropWhile {p : Char → Bool} :
    ∀ l : Str, (l.dropWhile p).dropWhile p = l.dropWhile p := by
  intro l
  induction l with
  | nil => rfl
  | cons a t ih =>
    rw [List.dropWhile_cons]
    by_cases h : p a
    · rw [if_pos h]; exact ih
    · rw [if_neg h, List.dropWhile_cons, if_neg h]

theorem stripBack_head_fix {a : Char} {t : Str} (ha : pySpaceChar a = false) :
    (stripBack (a :: t)).dropWhile pySpaceChar = stripBack (a :: t) := by
  unfold stripBack
  rw [List.reverse_cons, List.dropWhile_append]
  by_cases he : (t.reverse.dropWhile pySpaceChar).isEmpty
  · rw [if_pos he]
    simp [List.dropWhile_cons, ha]
  · rw [if_neg he]
    rw [List.reverse_append, List.reverse_singleton]
    rw [List.singleton_append, List.dropWhile_cons, ha]
    simp

theorem head_fail_of_dropWhile_cons {p : Char → Bool} :
    ∀ (l : Str) (a : Char) (t : Str), l.dropWhile p = a :: t → p a = false := by
  intro l
  induction l with
  | nil => intro a t h; simp at h
  | cons x xs ih =>
    intro a t h
    rw [List.dropWhile_cons] at h
    by_cases hx : p x
    · rw [if_pos hx] at h
      exact ih a t h
    · rw [if_neg hx] at h
      obtain ⟨rfl, -⟩ := List.cons.injEq .. ▸ h
      exact Bool.eq_false_iff.mpr hx

theorem pyStrip_front_fix (l : Str) :
    (pyStrip l).dropWhile pySpaceChar = pyStrip l := by
  unfold pyStrip
  cases hA : l.dropWhile pySpaceChar with
  | nil => rfl
  | cons a t =>
    exact stripBack_head_fix (head_fail_of_dropWhile_cons l a t hA)

theorem stripBack_stripBack (l : Str) : stripBack (stripBack l) = stripBack l := by
  unfold stripBack
  rw [List.reverse_reverse, dropWhile_dropWhile]

theorem pyStrip_pyStrip (l : Str) : pyStrip (pyStrip l) = pyStrip l := by
  show stripBack ((pyStrip l).dropWhile pySpaceChar) = pyStrip l
  rw [pyStrip_front_fix]
  show stripBack (stripBack (l.dropWhile pySpaceChar)) = pyStrip l
  rw [stripBack_stripBack]
  rfl

theorem pyLowerChar_toNat_not_upper {c : Char}
    (h : ¬(65 ≤ c.toNat ∧ c.toNat ≤ 90)) : pyLowerChar c = c := by
  unfold pyLowerChar
  rw [if_neg h]

theorem pyLowerChar_toNat_upper {c : Char} (h : 65 ≤ c.toNat ∧ c.toNat ≤ 90) :
    (pyLowerChar c).toNat = c.toNat + 32 := by
  unfold pyLowerChar
  rw [if_pos h]
  exact toNat_ofNat_valid (by omega)

theorem pyLowerChar_pyLowerChar (c : Char) :
    pyLowerChar (pyLowerChar c) = pyLowerChar c := by
  by_cases h : 65 ≤ c.toNat ∧ c.toNat ≤ 90
  · apply pyLowerChar_toNat_not_upper
    rw [pyLowerChar_toNat_upper h]
    omega
  · rw [pyLowerChar_toNat_not_upper h, pyLowerChar_toNat_not_upper h]

theorem pySpaceChar_pyLowerChar (c : Char) :
    pySpaceChar (pyLowerChar c) = pySpaceChar c := by
  by_cases h : 65 ≤ c.toNat ∧ c.toNat ≤ 90
  · rw [pySpaceChar_false_of_toNat (by rw [pyLowerChar_toNat_upper h]; omega),
      pySpaceChar_false_of_toNat (by omega)]
  · rw [pyLowerChar_toNat_not_upper h]

theorem dropWhile_space_pyLower (l : Str) :
    (pyLower l).dropWhile pySpaceChar = pyLower (l.dropWhile pySpaceChar) := by
  unfold pyLower
  rw [List.dropWhile_map]
  have hp : pySpaceChar ∘ pyLowerChar = pySpaceChar :=
    funext fun c => pySpaceChar_pyLowerChar c
  rw [hp]

theorem stripBack_pyLower (l : Str) :
    stripBack (pyLower l) = pyLower (stripBack l) := by
  unfold stripBack pyLower
  rw [← List.map_reverse, List.dropWhile_map]
  have hp : pySpaceChar ∘ pyLowerChar = pySpaceChar :=
    funext fun c => pySpaceChar_pyLowerChar c
  rw [hp, List.map_reverse]

theorem pyStrip_pyLower (l : Str) : pyStrip (pyLower l) = pyLower (pyStrip l) := by
  unfold pyStrip
  rw [dropWhile_space_pyLower, stripBack_pyLower]

theorem pyLower_pyLower (l : Str) : pyLower (pyLower l) = pyLower l := by
  unfold pyLower
  rw [List.map_map]
  have hp : pyLowerChar ∘ pyLowerChar = pyLowerChar :=
    funext fun c => pyLowerChar_pyLowerChar c
  rw [hp]

theorem normalize_genre_idem (g : Str) :
    normalize_genre (normalize_genre g) = normalize_genre g := by
  unfold normalize_genre
  rw [pyStrip_pyLower, pyStrip_pyStrip, pyLower_pyLower]

theorem expandK_of_no_K {l : Str} (h : ∀ c ∈ l, c ≠ 'K') : expandK l = l := by
  induction l with
  | nil => rfl
  | cons x xs ih =>
    have hx : x ≠ 'K' := h x (List.mem_cons_self _ _)
    simp only [expandK, List.flatMap_cons, if_neg hx, List.singleton_append]
    have := ih fun c hc => h c (List.mem_cons_of_mem _ hc)
    simpa [expandK] using this

theorem removeCommas_of_no_comma {l : Str} (h : ∀ c ∈ l, c ≠ ',') :
    removeCommas l = l := by
  unfold removeCommas
  rw [List.filter_eq_self]
  intro a ha
  simpa using h a ha

theorem isDigit_ne_of_toNat {c x : Char} (h : c.isDigit = true)
    (hx : x.toNat < 48 ∨ 57 < x.toNat) : c ≠ x := by
  intro he
  have := isDigit_toNat h
  rw [he] at this
  omega

theorem firstDigitRun_digits_append {A : Str} {x : Char} {B : Str}
    (hA : ∀ c ∈ A, c.isDigit = true) (hne : A ≠ []) (hx : x.isDigit = false) :
    firstDigitRun (A ++ x :: B) = some (digitsVal A) := by
  cases A with
  | nil => exact absurd rfl hne
  | cons d ds =>
    have hd : d.isDigit = true := hA d (List.mem_cons_self _ _)
    rw [List.cons_append, firstDigitRun, if_pos hd, ← List.cons_append,
      takeWhile_append_not (d :: ds) x B hA hx]

theorem normalize_voting_renderFloatNat (n : ℕ) :
    normalize_voting (renderFloatNat n) = n := by
  unfold normalize_voting renderFloatNat
  have hdig := natDigits_all_digit n
  have hKfree : ∀ c ∈ natDigits n ++ ['.', '0'], c ≠ 'K' := by
    intro c hc
    rcases List.mem_append.mp hc with h1 | h1
    · exact isDigit_ne_of_toNat (hdig c h1) (by right; decide)
    · rcases (by simpa using h1 : c = '.' ∨ c = '0') with rfl | rfl <;> decide
  have hCfree : ∀ c ∈ natDigits n ++ ['.', '0'], c ≠ ',' := by
    intro c hc
    rcases List.mem_append.mp hc with h1 | h1
    · exact isDigit_ne_of_toNat (hdig c h1) (by left; decide)
    · rcases (by simpa using h1 : c = '.' ∨ c = '0') with rfl | rfl <;> decide
  rw [expandK_of_no_K hKfree, removeCommas_of_no_comma hCfree]
  have hsplit : natDigits n ++ ['.', '0'] = natDigits n ++ '.' :: ['0'] := rfl
  rw [hsplit, firstDigitRun_digits_append hdig (natDigits_ne_nil n) (by decide),
    digitsVal_natDigits]

/-! ## C9: parser round trip -/

theorem parseDecCore_render (neg : Bool) (ip fv fl : ℕ) (hwf : fv < 10 ^ fl) :
    ∃ r2 : DecRep,
      parseDecCore neg (natDigits ip ++ '.' ::
        (if fl = 0 then ['0'] else padZeros fl (natDigits fv))) = some r2 ∧
      repVal r2 = repVal ⟨neg, ip, fv, fl⟩ := by
  have hA := natDigits_all_digit ip
  have hAne := natDigits_ne_nil ip
  by_cases h0 : fl = 0
  · subst h0
    rw [if_pos rfl]
    have hFd : ∀ c ∈ (['0'] : Str), c.isDigit = true := by decide
    simp only [parseDecCore]
    rw [dropWhile_append_not (natDigits ip) '.' ['0'] hA (by decide)]
    rw [takeWhile_append_not (natDigits ip) '.' ['0'] hA (by decide)]
    simp only [reduceIte]
    rw [takeWhile_all ['0'] hFd, dropWhile_all ['0'] hFd]
    rw [if_pos ?cond]
    case cond =>
      refine ⟨rfl, fun hand => hAne (List.isEmpty_iff.mp hand.1)⟩
    refine ⟨⟨neg, digitsVal (natDigits ip), digitsVal ['0'], List.length ['0']⟩,
      rfl, ?_⟩
    rw [digitsVal_natDigits]
    have hfv : fv = 0 := by simpa using hwf
    subst hfv
    have hd0 : digitsVal ['0'] = 0 := by decide
    rw [hd0]
    cases neg <;> simp [repVal]
  · rw [if_neg h0]
    have hFd : ∀ c ∈ padZeros fl (natDigits fv), c.isDigit = true :=
      padZeros_all_digit (natDigits_all_digit fv) fl
    simp only [parseDecCore]
    rw [dropWhile_append_not (natDigits ip) '.' _ hA (by decide)]
    rw [takeWhile_append_not (natDigits ip) '.' _ hA (by decide)]
    simp only [reduceIte]
    rw [takeWhile_all _ hFd, dropWhile_all _ hFd]
    rw [if_pos ?cond2]
    case cond2 =>
      refine ⟨rfl, fun hand => hAne (List.isEmpty_iff.mp hand.1)⟩
    refine ⟨⟨neg, digitsVal (natDigits ip), digitsVal (padZeros fl (natDigits fv)),
      (padZeros fl (natDigits fv)).length⟩, rfl, ?_⟩
    rw [digitsVal_natDigits, digitsVal_padZeros, digitsVal_natDigits,
      padZeros_length (natDigits_length_le fv fl hwf (by omega))]

theorem parseDecimalRep_render (rep : DecRep) (hwf : rep.fv < 10 ^ rep.fl) :
    ∃ r2 : DecRep, parseDecimalRep (renderRep rep) = some r2 ∧
      repVal r2 = repVal rep := by
  obtain ⟨neg, ip, fv, fl⟩ := rep
  unfold renderRep
  cases neg
  · simp only [Bool.false_eq_true, if_false, List.nil_append]
    cases hnd : natDigits ip with
    | nil => exact absurd hnd (natDigits_ne_nil ip)
    | cons d ds =>
      have hd : d.isDigit = true := by
        apply natDigits_all_digit ip
        rw [hnd]
        exact List.mem_cons_self _ _
      have hd1 : d ≠ '-' := isDigit_ne_of_toNat hd (by left; decide)
      have hd2 : d ≠ '+' := isDigit_ne_of_toNat hd (by left; decide)
      rw [List.cons_append, parseDecimalRep.eq_def]
      split
      · next heq => exact absurd ((List.cons.injEq .. ▸ heq).1) hd1
      · next heq => exact absurd ((List.cons.injEq .. ▸ heq).1) hd2
      · rw [← List.cons_append, ← hnd]
        exact parseDecCore_render false ip fv fl hwf
  · simp only [if_true, List.singleton_append]
    exact parseDecCore_render true ip fv fl hwf

theorem parseDecCore_wf {neg : Bool} {x : Str} {rep : DecRep}
    (h : parseDecCore neg x = some rep) : rep.fv < 10 ^ rep.fl := by
  simp only [parseDecCore] at h
  split at h
  · split at h
    · exact absurd h (by simp)
    · injection h with h1
      subst h1
      simp
  · split at h
    · split at h
      · injection h with h1
        subst h1
        exact digitsVal_lt_pow _ (fun c hc => List.mem_takeWhile_imp hc)
      · exact absurd h (by simp)
    · exact absurd h (by simp)

theorem parseDecimalRep_wf {m : Str} {rep : DecRep}
    (h : parseDecimalRep m = some rep) : rep.fv < 10 ^ rep.fl := by
  unfold parseDecimalRep at h
  split at h <;> exact parseDecCore_wf h

theorem renderRep_no_space (rep : DecRep) :
    ∀ c ∈ renderRep rep, pySpaceChar c = false := by
  intro c hc
  unfold renderRep at hc
  rcases List.mem_append.mp hc with h1 | h1
  · rcases List.mem_append.mp h1 with h2 | h2
    · by_cases hn : rep.neg = true
      · rw [if_pos hn] at h2
        rw [List.mem_singleton.mp h2]
        decide
      · rw [if_neg hn] at h2
        exact absurd h2 (List.not_mem_nil c)
    · exact pySpaceChar_of_isDigit (natDigits_all_digit _ c h2)
  · rcases List.mem_cons.mp h1 with rfl | h3
    · decide
    · by_cases h0 : rep.fl = 0
      · rw [if_pos h0] at h3
        rw [List.mem_singleton.mp h3]
        decide
      · rw [if_neg h0] at h3
        exact pySpaceChar_of_isDigit
          (padZeros_all_digit (natDigits_all_digit _) _ c h3)

theorem normalize_rating_render {l : Str} {rep : DecRep}
    (h : parseDecimalRep (pyStrip l) = some rep) :
    normalize_rating (renderRep rep) = normalize_rating l := by
  have hwf := parseDecimalRep_wf h
  obtain ⟨r2, hr2, hval⟩ := parseDecimalRep_render rep hwf
  unfold normalize_rating
  rw [pyStrip_of_no_space (renderRep_no_space rep), hr2, h]
  exact hval

/-- C9, counterexample: on a one-record batch with Duration text `"2h"`,
the cleaned Duration is `120.0`; re-running the Normalizer on the text
rendering of the cleaned record (Rating `"7.0"`, Voting `"5.0"`, Duration
`"120.0"`, all shown equal to the `renderRep`/`renderFloatNat` renderings)
yields Duration `NaN` (`none`) — not `120` — because the rendered minutes
carry no `'h'`/`'m'` marker and are imputed from an all-missing batch, so
normalization is not idempotent. -/
theorem C9_counterexample :
    (load_movies_data [⟨"a".data, "x".data, "7.0".data, "5".data,
        "2h".data⟩]).map (fun r => r.duration) = [some 120] ∧
    renderRep ⟨false, 7, 0, 1⟩ = "7.0".data ∧
    renderFloatNat 5 = "5.0".data ∧
    renderFloatNat 120 = "120.0".data ∧
    (load_movies_data [⟨"a".data, "x".data, "7.0".data, "5.0".data,
        "120.0".data⟩]).map (fun r => r.duration) = [none] ∧
    some (120 : ℚ) ≠ none := by
  refine ⟨by decide, ?_, ?_, ?_, by decide, by simp⟩
  · simp only [renderRep, padZeros]
    rw [natDigits, natDigits]
    decide
  · unfold renderFloatNat
    rw [natDigits]
    decide
  · unfold renderFloatNat
    rw [natDigits, natDigits, natDigits]
    decide

/-- C9, amended: re-running the Normalizer on the text rendering of its own
cleaned output is the identity for the Genre, Voting and Rating fields
(genre normalization is idempotent; re-normalizing the decimal rendering of
a cleaned Voting or Rating value reproduces it exactly), but NOT for the
Duration field: the rendering of a cleaned Duration contains no `'h'` or
`'m'` marker, so `parse_duration` returns the imputation sentinel on it
instead of the original value. -/
theorem C9_amended :
    (∀ g : Str, normalize_genre (normalize_genre g) = normalize_genre g) ∧
    (∀ s : Str, normalize_voting (renderFloatNat (normalize_voting s)) =
      normalize_voting s) ∧
    (∀ (l : Str) (rep : DecRep), parseDecimalRep (pyStrip l) = some rep →
      normalize_rating (renderRep rep) = normalize_rating l) ∧
    normalize_rating (renderRep ⟨false, 0, 0, 0⟩) = 0 ∧
    (∀ l : Str, 'h' ∉ l → 'm' ∉ l → clean_duration l = none) ∧
    (∀ n : ℕ, 'h' ∉ renderFloatNat n ∧ 'm' ∉ renderFloatNat n) := by
  refine ⟨normalize_genre_idem, fun s => normalize_voting_renderFloatNat _,
    fun l rep h => normalize_rating_render h, ?_, ?_, ?_⟩
  · have hr : renderRep ⟨false, 0, 0, 0⟩ = "0.0".data := by
      simp only [renderRep, padZeros]
      rw [natDigits]
      decide
    rw [hr]
    have hp : parseDecimalRep (pyStrip ("0.0".data)) = some ⟨false, 0, 0, 1⟩ := by
      decide
    unfold normalize_rating
    rw [hp]
    simp [repVal]
  · intro l hh hm
    unfold clean_duration parse_duration findNumBefore
    rw [hSpace_of_no_h hh]
    rw [findNumGo_of_not_mem hh none, findNumGo_of_not_mem hm none]
    simp
  · intro n
    constructor <;> intro hmem
    · rcases List.mem_append.mp hmem with h1 | h1
      · exact absurd (natDigits_all_digit n 'h' h1) (by decide)
      · exact absurd h1 (by decide)
    · rcases List.mem_append.mp hmem with h1 | h1
      · exact absurd (natDigits_all_digit n 'm' h1) (by decide)
      · exact absurd h1 (by decide)

/-- C9, witness: the amended theorem's Rating round trip applied at `"7.5"`
and its Duration clause applied at the rendered minutes text `"120.0"`. -/
theorem C9_witness :
    normalize_rating (renderRep ⟨false, 7, 5, 1⟩) =
      normalize_rating ("7.5".data) ∧
    clean_duration ("120.0".data) = none :=
  ⟨C9_amended.2.2.1 ("7.5".data) ⟨false, 7, 5, 1⟩ (by decide),
   C9_amended.2.2.2.2.1 ("120.0".data) (by decide) (by decide)⟩

end IMDB
